import Mathlib

/-!
Shallow embedding of the `randwalk` random-walk agent library
(`randwalk/__init__.py`) and proofs about its specification.

Conventions of the embedding:
* vertices are natural numbers (the repository's graphs use positive
  integer vertex labels; `0` plays the role of a falsy vertex in the
  Python truthiness tests that the source performs);
* Python floats are modelled as rationals;
* Python exceptions and failed assertions are modelled with
  `Except String`;
* Python `%` and `//` on integers are `Int.fmod` and `Int.fdiv`
  (both round toward the sign of the divisor, as Python does);
* the ambient random draws (`random.uniform`, `random.random`) and the
  opaque hash function `hash(str(key))` are passed in explicitly.
-/

/-- `EPS = 1e-4`, the small weight given to discouraged transitions. -/
def EPS : ℚ := 1 / 10000

/-- State of a walk agent (`SRW` and subclasses): the bookkeeping fields
mutated by `move_to` and `advance`.  `current` is `none` before the first
placement (in Python the attribute is simply unset).  `hitting` is the
`hitting` mapping as an insertion-ordered association list (Python dict
keys are assigned at most once here, as proved below). -/
structure WalkState where
  current : Option Nat
  path : List Nat
  step : Nat
  nvisits : Nat → Nat
  ncovered : Nat
  hitting : List (Nat × Nat)

/-- `SRW.move_to(v)`: set `current`, append to `path`, and if this is the
first visit record `hitting[v] = step` and bump `ncovered`; finally
increment `nvisits[v]`. -/
def move_to (s : WalkState) (v : Nat) : WalkState :=
  { current := some v
    path := s.path ++ [v]
    step := s.step
    nvisits := fun w => if w = v then s.nvisits v + 1 else s.nvisits w
    ncovered := if s.nvisits v = 0 then s.ncovered + 1 else s.ncovered
    hitting := if s.nvisits v = 0 then s.hitting ++ [(v, s.step)] else s.hitting }

/-- `SRW.__init__(graph, current)`: empty bookkeeping, then
`if current: self.move_to(current)`.  Python truthiness: the move happens
only when `current` is neither `None` nor the vertex `0`. -/
def srwInit (current : Option Nat) : WalkState :=
  let s0 : WalkState :=
    { current := none, path := [], step := 0,
      nvisits := fun _ => 0, ncovered := 0, hitting := [] }
  match current with
  | some v => if v ≠ 0 then move_to s0 v else s0
  | none => s0

/-- `SRW.advance()` with the randomly picked vertex made explicit:
`move_to` the chosen vertex, then increment `step`. -/
def advance_with (s : WalkState) (v : Nat) : WalkState :=
  let s2 := move_to s v
  { s2 with step := s2.step + 1 }

/-- One observable mutation of an agent: an `advance()` whose random pick
resolved to `v`, or a direct `move_to(v)` call. -/
inductive WalkOp where
  | adv (v : Nat)
  | mv (v : Nat)

/-- Apply one mutation. -/
def applyOp (s : WalkState) (op : WalkOp) : WalkState :=
  match op with
  | .adv v => advance_with s v
  | .mv v => move_to s v

/-- Run a sequence of mutations. -/
def opRun (s : WalkState) (ops : List WalkOp) : WalkState :=
  ops.foldl applyOp s

/-- The coverage bookkeeping invariant: `ncovered` counts the entries of
the `hitting` mapping, the keys of `hitting` are pairwise distinct, and a
vertex has a `hitting` entry exactly when it has been visited. -/
def covInv (s : WalkState) : Prop :=
  s.ncovered = s.hitting.length
  ∧ (s.hitting.map Prod.fst).Nodup
  ∧ ∀ v : Nat, (∃ t, (v, t) ∈ s.hitting) ↔ s.nvisits v ≠ 0

/-- `SRW.prev_vertex()` (with `n = 1`): `path[-2]`, or `None` when `path`
is shorter than 2. -/
def prev_vertex (path : List Nat) : Option Nat :=
  path.reverse[1]?

/-- `HybridRW.weight(u, v)` for `u` the current vertex: `EPS` if `v` is
the previous vertex; else `EPS` if the previous vertex `t` is truthy
(`t ≠ 0`) and `v` is adjacent to it; else `EPS` if the Bloom filter
reports `v`; otherwise `degree(v) ** alpha`.  The graph queries, the
Bloom-filter query and the map `d ↦ d ** alpha` are passed in as
functions (`powA d` stands for `d ** alpha`). -/
def hybrid_weight (hasEdge : Nat → Nat → Bool) (deg : Nat → Nat)
    (powA : Nat → ℚ) (bfq : Nat → Bool) (path : List Nat) (v : Nat) : ℚ :=
  let prev := prev_vertex path
  if prev = some v then EPS
  else
    match prev with
    | some t =>
      if t ≠ 0 ∧ hasEdge t v = true then EPS
      else if bfq v = true then EPS else powA (deg v)
    | none => if bfq v = true then EPS else powA (deg v)

/-- The cumulative-weight linear scan inside `SRW.pick_next`: starting
from the running total `accum`, return the first `v` whose cumulative
weight exceeds the drawn value `chosen`. -/
def scanPick (w : Nat → ℚ) (chosen : ℚ) : ℚ → List Nat → Option Nat
  | _, [] => none
  | accum, v :: rest =>
    if chosen < accum + w v then some v else scanPick w chosen (accum + w v) rest

/-- `SRW.pick_next(u)` with the uniform draw `chosen` made explicit:
assert the neighbor list is non-empty, scan the cumulative weights, and
assert again if the scan falls through. -/
def pick_next (neighbors : List Nat) (w : Nat → ℚ) (chosen : ℚ) :
    Except String Nat :=
  if neighbors = [] then .error "isolated vertex"
  else
    match scanPick w chosen 0 neighbors with
    | some v => .ok v
    | none => .error "no neighbor selected"

/-- `collections.deque(maxlen := k).append(v)`: append on the right,
keeping only the `k` most recent entries (the oldest are dropped from
the left automatically). -/
def dequeAppend (k : Nat) (l : List Nat) (v : Nat) : List Nat :=
  (l ++ [v]).drop (l.length + 1 - k)

/-- `kHistory_FIFO.move_to` history update: append `v` only when it is
not already in the buffer. -/
def fifoMove (k : Nat) (l : List Nat) (v : Nat) : List Nat :=
  if v ∈ l then l else dequeAppend k l v

/-- Repeated FIFO-dedup history updates. -/
def fifoRun (k : Nat) (l : List Nat) (vs : List Nat) : List Nat :=
  vs.foldl (fifoMove k) l

/-- `kHistory_LRU.move_to` history update: if `v` is present remove its
(first) occurrence, then append `v`. -/
def lruMove (k : Nat) (l : List Nat) (v : Nat) : List Nat :=
  dequeAppend k (if v ∈ l then l.erase v else l) v

/-- Resolve a Python list index (negative indices count from the back);
`none` is an `IndexError`. -/
def pyIdx (len : Nat) (i : Int) : Option Nat :=
  if 0 ≤ i ∧ i < (len : Int) then some i.toNat
  else if -(len : Int) ≤ i ∧ i < 0 then some (i + len).toNat
  else none

/-- Python `l[i]` on a list of bits. -/
def pyGet (l : List Bool) (i : Int) : Except String Bool :=
  match pyIdx l.length i with
  | some n => .ok (l.getD n false)
  | none => .error "IndexError"

/-- Python `l[i] = b` on a list of bits. -/
def pySet (l : List Bool) (i : Int) (b : Bool) : Except String (List Bool) :=
  match pyIdx l.length i with
  | some n => .ok (l.set n b)
  | none => .error "IndexError"

/-- Bit `n` of the filter's bit array (false beyond the end). -/
def bitat (l : List Bool) (n : Nat) : Bool :=
  l.getD n false

/-- `BloomFilter.hashes(key)`: three indices derived from one digest by
`%` and `//` with the filter size; `hashf key` stands for the opaque
`hash(str(key))`.  Dividing by size zero is a `ZeroDivisionError`. -/
def bloomHashes (hashf : Nat → Int) (size : Int) (key : Nat) :
    Except String (Int × Int × Int) :=
  if size = 0 then .error "ZeroDivisionError"
  else
    let digest := hashf key
    .ok (digest.fmod size, (digest.fdiv size).fmod size,
      ((digest.fdiv size).fdiv size).fmod size)

/-- `BloomFilter.add(key)`: set the three hashed bits in order, any
exception propagating to the caller. -/
def bloomAdd (hashf : Nat → Int) (size : Int) (arr : List Bool) (key : Nat) :
    Except String (List Bool) :=
  match bloomHashes hashf size key with
  | .error e => .error e
  | .ok (h1, h2, h3) =>
    match pySet arr h1 true with
    | .error e => .error e
    | .ok arr1 =>
      match pySet arr1 h2 true with
      | .error e => .error e
      | .ok arr2 => pySet arr2 h3 true

/-- A sequence of `BloomFilter.add` calls. -/
def bloomAddList (hashf : Nat → Int) (size : Int) (arr : List Bool) :
    List Nat → Except String (List Bool)
  | [] => .ok arr
  | k :: rest =>
    match bloomAdd hashf size arr k with
    | .error e => .error e
    | .ok arr2 => bloomAddList hashf size arr2 rest

/-- The bit array after a successful `BloomFilter.add(key)`: the three
hashed positions set to 1 (proved below to be what `bloomAdd` returns for
a positive size). -/
def bloomSet3 (hashf : Nat → Int) (size : Int) (st : List Bool) (key : Nat) :
    List Bool :=
  ((st.set ((hashf key).fmod size).toNat true).set
      (((hashf key).fdiv size).fmod size).toNat true).set
      ((((hashf key).fdiv size).fdiv size).fmod size).toNat true

/-- `BloomFilter.query(key)`: `all(bitarray[n] == 1 for n in hashes(key))`,
with Python's short-circuit evaluation of `all`. -/
def bloomQuery (hashf : Nat → Int) (size : Int) (arr : List Bool)
    (key : Nat) : Except String Bool :=
  match bloomHashes hashf size key with
  | .error e => .error e
  | .ok (h1, h2, h3) =>
    match pyGet arr h1 with
    | .error e => .error e
    | .ok false => .ok false
    | .ok true =>
      match pyGet arr h2 with
      | .error e => .error e
      | .ok false => .ok false
      | .ok true => pyGet arr h3

/-- `BloomFilter.__init__(size)`: default the size to 1000, then build
`[0] * size` — which is the empty list for a non-positive size; the
constructor itself can raise nothing. -/
def bloomInit (size : Option Int) : Except String (Int × List Bool) :=
  let s := size.getD 1000
  .ok (s, List.replicate s.toNat false)

/-- `kHistory.__init__(hist_size)`: `collections.deque(maxlen = hist_size)`
raises `ValueError` for a negative maxlen, at construction time. -/
def kHistoryInit (hist_size : Int) : Except String (List Nat) :=
  if hist_size < 0 then .error "ValueError"
  else .ok []

/-- `LZRW.pick_next(u)` with the `random.random()` draw explicit: stay at
`u` when the draw is at most `laziness`, otherwise take the parent
class's pick (passed in as `fallback`, which Python does not even
evaluate in the lazy branch). -/
def lzPick (laziness r : ℚ) (u fallback : Nat) : Nat :=
  if r ≤ laziness then u else fallback

/-- One `advance()` of a lazy walker: `pick_next` from `current`
(an unset `current` is an `AttributeError`), then `move_to` and bump
`step`.  `rf` packs the uniform draw and the parent-class fallback pick. -/
def lzAdvance (laziness : ℚ) (s : WalkState) (rf : ℚ × Nat) :
    Except String WalkState :=
  match s.current with
  | some u => .ok (advance_with s (lzPick laziness rf.1 u rf.2))
  | none => .error "AttributeError"

/-- A sequence of lazy `advance()` calls. -/
def lzRun (laziness : ℚ) (s : WalkState) :
    List (ℚ × Nat) → Except String WalkState
  | [] => .ok s
  | rf :: rest =>
    match lzAdvance laziness s rf with
    | .error e => .error e
    | .ok s2 => lzRun laziness s2 rest

/-! ## Coverage bookkeeping (C1) -/

lemma covInv_move_to (s : WalkState) (v : Nat) (h : covInv s) :
    covInv (move_to s v) := by
  obtain ⟨h1, h2, h3⟩ := h
  by_cases h0 : s.nvisits v = 0
  · refine ⟨?_, ?_, ?_⟩
    · simp [move_to, h0, h1]
    · simp only [move_to, h0, if_pos rfl, if_true]
      simp only [if_pos h0, List.map_append, List.map_cons, List.map_nil]
      rw [List.nodup_append]
      refine ⟨h2, by simp, ?_⟩
      intro a ha hb
      simp only [List.mem_singleton] at hb
      subst hb
      rw [List.mem_map] at ha
      obtain ⟨p, hp, hpv⟩ := ha
      exact ((h3 a).mp ⟨p.2, by rw [← hpv]; simpa using hp⟩) h0
    · intro w
      simp only [move_to, if_pos h0, List.mem_append, List.mem_singleton]
      by_cases hwv : w = v
      · subst hwv
        simp only [if_pos rfl]
        constructor
        · intro _; exact Nat.succ_ne_zero _
        · intro _; exact ⟨s.step, Or.inr rfl⟩
      · simp only [if_neg hwv]
        constructor
        · rintro ⟨t, ht | ht⟩
          · exact (h3 w).mp ⟨t, ht⟩
          · exact absurd (congrArg Prod.fst ht) hwv
        · intro hw
          obtain ⟨t, ht⟩ := (h3 w).mpr hw
          exact ⟨t, Or.inl ht⟩
  · refine ⟨?_, ?_, ?_⟩
    · simp [move_to, h0, h1]
    · simpa [move_to, h0] using h2
    · intro w
      simp only [move_to, if_neg h0]
      by_cases hwv : w = v
      · subst hwv
        simp only [if_pos rfl]
        constructor
        · intro _; exact Nat.succ_ne_zero _
        · intro _; exact (h3 w).mpr h0
      · simpa [hwv] using h3 w

lemma covInv_applyOp (s : WalkState) (op : WalkOp) (h : covInv s) :
    covInv (applyOp s op) := by
  cases op with
  | adv v =>
    have := covInv_move_to s v h
    obtain ⟨h1, h2, h3⟩ := this
    exact ⟨h1, h2, h3⟩
  | mv v => exact covInv_move_to s v h

lemma covInv_opRun (ops : List WalkOp) :
    ∀ s : WalkState, covInv s → covInv (opRun s ops) := by
  induction ops with
  | nil => intro s h; exact h
  | cons op rest ih =>
    intro s h
    exact ih (applyOp s op) (covInv_applyOp s op h)

lemma covInv_srwInit (st : Option Nat) : covInv (srwInit st) := by
  have hbase : covInv
      { current := none, path := [], step := 0,
        nvisits := fun _ => 0, ncovered := 0, hitting := [] } := by
    refine ⟨rfl, List.nodup_nil, ?_⟩
    intro v
    simp
  match st with
  | none => exact hbase
  | some v =>
    by_cases hv : v ≠ 0
    · simpa [srwInit, hv] using covInv_move_to _ v hbase
    · simpa [srwInit, hv] using hbase

/-- C1: for every walk agent, after construction with a start vertex and
after every `advance()`/`move_to()` call, `ncovered` equals the number of
keys of the `hitting` mapping (the keys are pairwise distinct), a vertex
has a `hitting` entry exactly when its visit count is non-zero, and a
`move_to` adds a `hitting` entry exactly at the move where the visit
count goes from 0 to 1, with value the current step count. -/
theorem srw_hitting_covered_invariant (st : Option Nat) (ops : List WalkOp) :
    (opRun (srwInit st) ops).ncovered = (opRun (srwInit st) ops).hitting.length
    ∧ ((opRun (srwInit st) ops).hitting.map Prod.fst).Nodup
    ∧ (∀ v : Nat, (∃ t, (v, t) ∈ (opRun (srwInit st) ops).hitting) ↔
        (opRun (srwInit st) ops).nvisits v ≠ 0)
    ∧ (∀ v : Nat, (move_to (opRun (srwInit st) ops) v).hitting =
        if (opRun (srwInit st) ops).nvisits v = 0 then
          (opRun (srwInit st) ops).hitting ++ [(v, (opRun (srwInit st) ops).step)]
        else (opRun (srwInit st) ops).hitting) := by
  obtain ⟨h1, h2, h3⟩ := covInv_opRun ops (srwInit st) (covInv_srwInit st)
  exact ⟨h1, h2, h3, fun v => rfl⟩

/-! ## Step counter versus path length (C3), initial placement (C10) -/

lemma advRun_path_step :
    ∀ (vs : List Nat) (s : WalkState), s.path.length = s.step + 1 →
      (vs.foldl advance_with s).path.length = (vs.foldl advance_with s).step + 1 := by
  intro vs
  induction vs with
  | nil => intro s h; exact h
  | cons v rest ih =>
    intro s h
    apply ih
    simp [advance_with, move_to, h]

/-- C3: for an agent constructed with a (positive, hence truthy) start
vertex, `step` equals `len(path) - 1` right after initialization; every
`advance()` appends exactly one vertex to `path` and increments `step` by
exactly one, and hence preserves the equality along any run. -/
theorem srw_step_path_length (start : Nat) (h : 0 < start) :
    (srwInit (some start)).path.length = (srwInit (some start)).step + 1
    ∧ (∀ (s : WalkState) (v : Nat),
        (advance_with s v).path.length = s.path.length + 1
        ∧ (advance_with s v).step = s.step + 1)
    ∧ (∀ vs : List Nat,
        (vs.foldl advance_with (srwInit (some start))).path.length =
          (vs.foldl advance_with (srwInit (some start))).step + 1) := by
  have hne : start ≠ 0 := h.ne'
  refine ⟨by simp [srwInit, move_to, hne], ?_, ?_⟩
  · intro s v
    constructor <;> simp [advance_with, move_to]
  · intro vs
    apply advRun_path_step
    simp [srwInit, move_to, hne]

/-- Witness for `srw_step_path_length` at the concrete start vertex 1. -/
theorem srw_step_path_length_witness :
    0 < 1
    ∧ ((srwInit (some 1)).path.length = (srwInit (some 1)).step + 1
      ∧ (∀ (s : WalkState) (v : Nat),
          (advance_with s v).path.length = s.path.length + 1
          ∧ (advance_with s v).step = s.step + 1)
      ∧ (∀ vs : List Nat,
          (vs.foldl advance_with (srwInit (some 1))).path.length =
            (vs.foldl advance_with (srwInit (some 1))).step + 1)) :=
  ⟨by decide, srw_step_path_length 1 (by decide)⟩

/-- C10 counterexample: constructed with start vertex `0` (as in the
spec's ring `0-1-2-3-4-0` example), the agent performs no initial
placement at all — `if current:` is false for the vertex `0` — so `path`
is empty, nothing is covered, and `hitting` is empty, refuting
`path = [0] ∧ ncovered = 1`. -/
theorem srw_init_zero_start_cex :
    (srwInit (some 0)).path = [] ∧ (srwInit (some 0)).ncovered = 0
    ∧ (srwInit (some 0)).hitting = []
    ∧ ¬((srwInit (some 0)).path = [0] ∧ (srwInit (some 0)).ncovered = 1) := by
  exact ⟨rfl, rfl, rfl, by decide⟩

/-- C10 amended: for every non-zero (truthy) start vertex the initial
placement happens: `path = [start]`, `ncovered = 1` and
`hitting[start] = 0`. -/
theorem srw_init_positive_start (start : Nat) (h : 0 < start) :
    (srwInit (some start)).path = [start]
    ∧ (srwInit (some start)).ncovered = 1
    ∧ (srwInit (some start)).hitting = [(start, 0)] := by
  have hne : start ≠ 0 := h.ne'
  refine ⟨?_, ?_, ?_⟩ <;> simp [srwInit, move_to, hne]

/-- Witness for `srw_init_positive_start` at the concrete start vertex 1. -/
theorem srw_init_positive_start_witness :
    0 < 1
    ∧ ((srwInit (some 1)).path = [1]
      ∧ (srwInit (some 1)).ncovered = 1
      ∧ (srwInit (some 1)).hitting = [(1, 0)]) :=
  ⟨by decide, srw_init_positive_start 1 (by decide)⟩

/-! ## Neighbor selection (C2) -/

lemma scanPick_mem (w : Nat → ℚ) (chosen : ℚ) :
    ∀ (l : List Nat) (accum : ℚ), l ≠ [] → chosen < accum + (l.map w).sum →
      ∃ v ∈ l, scanPick w chosen accum l = some v := by
  intro l
  induction l with
  | nil => intro accum h _; exact absurd rfl h
  | cons v rest ih =>
    intro accum _ hlt
    rw [List.map_cons, List.sum_cons] at hlt
    by_cases hv : chosen < accum + w v
    · exact ⟨v, List.mem_cons_self v rest, by simp [scanPick, hv]⟩
    · have hrest : rest ≠ [] := by
        rintro rfl
        simp only [List.map_nil, List.sum_nil, add_zero] at hlt
        exact hv (by linarith)
      obtain ⟨u, hu, hequ⟩ := ih (accum + w v) hrest (by linarith)
      refine ⟨u, List.mem_cons_of_mem v hu, ?_⟩
      simpa [scanPick, hv] using hequ

lemma scanPick_exhausted (w : Nat → ℚ) (chosen : ℚ) :
    ∀ (l : List Nat) (accum : ℚ), (∀ v ∈ l, 0 ≤ w v) →
      accum + (l.map w).sum ≤ chosen → scanPick w chosen accum l = none := by
  intro l
  induction l with
  | nil => intro accum _ _; rfl
  | cons v rest ih =>
    intro accum hw hle
    rw [List.map_cons, List.sum_cons] at hle
    have h0 : 0 ≤ (rest.map w).sum := by
      apply List.sum_nonneg
      intro x hx
      obtain ⟨u, hu, rfl⟩ := List.mem_map.mp hx
      exact hw u (List.mem_cons_of_mem v hu)
    have hnv : ¬ chosen < accum + w v := by linarith
    simp only [scanPick, if_neg hnv]
    exact ih (accum + w v) (fun u hu => hw u (List.mem_cons_of_mem v hu))
      (by linarith)

/-- C2: `pick_next` fatally asserts on a vertex with no neighbors; with
neighbors present, non-negative weights, positive total weight and a draw
strictly below the total, the cumulative-weight scan returns some
neighbor; the trailing assertion fires exactly in the rounding edge case
where the draw reaches the total. -/
theorem pick_next_safety (neighbors : List Nat) (w : Nat → ℚ) (chosen : ℚ)
    (hw : ∀ v ∈ neighbors, 0 ≤ w v) :
    (neighbors = [] → pick_next neighbors w chosen = .error "isolated vertex")
    ∧ (0 < (neighbors.map w).sum → chosen < (neighbors.map w).sum →
        ∃ v ∈ neighbors, pick_next neighbors w chosen = .ok v)
    ∧ (neighbors ≠ [] → (neighbors.map w).sum ≤ chosen →
        pick_next neighbors w chosen = .error "no neighbor selected") := by
  refine ⟨?_, ?_, ?_⟩
  · intro h; simp [pick_next, h]
  · intro hpos hlt
    have hne : neighbors ≠ [] := by
      rintro rfl
      simp only [List.map_nil, List.sum_nil] at hpos
      exact lt_irrefl 0 hpos
    obtain ⟨v, hv, heq⟩ :=
      scanPick_mem w chosen neighbors 0 hne (by simpa using hlt)
    exact ⟨v, hv, by simp [pick_next, hne, heq]⟩
  · intro hne hle
    have hnone :=
      scanPick_exhausted w chosen neighbors 0 hw (by simpa using hle)
    simp [pick_next, hne, hnone]

/-- Witness for `pick_next_safety` on the neighbor list `[2, 3]` with
unit weights and the draw `3/2`. -/
theorem pick_next_safety_witness :
    (∀ v ∈ [2, 3], (0 : ℚ) ≤ (fun _ : Nat => (1 : ℚ)) v)
    ∧ ∃ v ∈ [2, 3], pick_next [2, 3] (fun _ : Nat => (1 : ℚ)) (3 / 2) = .ok v :=
  ⟨fun v _ => by norm_num,
    (pick_next_safety [2, 3] (fun _ : Nat => (1 : ℚ)) (3 / 2)
      (fun v _ => by norm_num)).2.1 (by norm_num) (by norm_num)⟩

/-! ## History buffers (C6, C7) -/

lemma dequeAppend_nodup (k : Nat) (l : List Nat) (v : Nat)
    (h : l.Nodup) (hm : v ∉ l) : (dequeAppend k l v).Nodup := by
  unfold dequeAppend
  refine List.Nodup.sublist (List.drop_sublist _ _) ?_
  rw [List.nodup_append]
  refine ⟨h, List.nodup_singleton v, ?_⟩
  intro a ha hb
  rw [List.mem_singleton] at hb
  subst hb
  exact hm ha

lemma fifoMove_nodup (k : Nat) (l : List Nat) (v : Nat) (h : l.Nodup) :
    (fifoMove k l v).Nodup := by
  unfold fifoMove
  by_cases hm : v ∈ l
  · simpa [hm] using h
  · rw [if_neg hm]
    exact dequeAppend_nodup k l v h hm

lemma fifoRun_nodup (k : Nat) :
    ∀ (ws l : List Nat), l.Nodup → (fifoRun k l ws).Nodup := by
  intro ws
  induction ws with
  | nil => intro l h; exact h
  | cons v rest ih =>
    intro l h
    have := ih (fifoMove k l v) (fifoMove_nodup k l v h)
    simpa [fifoRun] using this

lemma fifoRun_eq_drop (k : Nat) :
    ∀ vs : List Nat, vs.Nodup → fifoRun k [] vs = vs.drop (vs.length - k) := by
  intro vs
  induction vs using List.reverseRecOn with
  | nil => intro _; simp [fifoRun]
  | append_singleton ws v ih =>
    intro h
    rw [List.nodup_append] at h
    obtain ⟨hws, -, hdisj⟩ := h
    have hv : v ∉ ws := fun hmem => hdisj hmem (List.mem_singleton.mpr rfl)
    have hstep : fifoRun k [] (ws ++ [v]) = fifoMove k (fifoRun k [] ws) v := by
      simp [fifoRun, List.foldl_append]
    rw [hstep, ih hws]
    have hvd : v ∉ ws.drop (ws.length - k) :=
      fun hm => hv (List.mem_of_mem_drop hm)
    unfold fifoMove
    rw [if_neg hvd]
    unfold dequeAppend
    have hd : ws.length - k ≤ ws.length := Nat.sub_le _ _
    rw [← List.drop_append_of_le_length hd, List.drop_drop]
    have harith : ws.length - k + ((ws.drop (ws.length - k)).length + 1 - k) =
        (ws ++ [v]).length - k := by
      rw [List.length_drop, List.length_append]
      simp only [List.length_singleton]
      omega
    rw [harith]

/-- C6: the FIFO-dedup history buffer appends a vertex only when absent
(so any buffer built from a duplicate-free buffer stays duplicate-free),
and a sequence of more than `k` pairwise-distinct vertices pushed through
a buffer of capacity `k` leaves exactly the `k` most recently appended
vertices (the oldest dropped automatically), without duplicates. -/
theorem fifo_dedup_buffer (k : Nat) (vs : List Nat)
    (hnd : vs.Nodup) (hlen : k < vs.length) :
    fifoRun k [] vs = vs.drop (vs.length - k)
    ∧ (fifoRun k [] vs).length = k
    ∧ (fifoRun k [] vs).Nodup
    ∧ (∀ (l : List Nat) (v : Nat), v ∈ l → fifoMove k l v = l) := by
  refine ⟨fifoRun_eq_drop k vs hnd, ?_, fifoRun_nodup k vs [] List.nodup_nil, ?_⟩
  · rw [fifoRun_eq_drop k vs hnd, List.length_drop]
    omega
  · intro l v hv
    simp [fifoMove, hv]

/-- Witness for `fifo_dedup_buffer`: capacity 2, distinct pushes
`[5, 6, 7]`. -/
theorem fifo_dedup_buffer_witness :
    ([5, 6, 7] : List Nat).Nodup ∧ 2 < ([5, 6, 7] : List Nat).length
    ∧ (fifoRun 2 [] [5, 6, 7] = ([5, 6, 7] : List Nat).drop (([5, 6, 7] : List Nat).length - 2)
      ∧ (fifoRun 2 [] [5, 6, 7]).length = 2
      ∧ (fifoRun 2 [] [5, 6, 7]).Nodup
      ∧ (∀ (l : List Nat) (v : Nat), v ∈ l → fifoMove 2 l v = l)) :=
  ⟨by decide, by decide, fifo_dedup_buffer 2 [5, 6, 7] (by decide) (by decide)⟩

/-- C7: the LRU-dedup history buffer, on a move to an already-present
vertex `v`, removes the prior occurrence and re-appends `v`, so `v` ends
at the most-recent end and the size does not change; the buffer stays
duplicate-free; and when the buffer is full a new distinct vertex evicts
the least-recently-used (front) entry. -/
theorem lru_dedup_buffer (k : Nat) (l : List Nat) (v : Nat)
    (hk : 0 < k) (hnd : l.Nodup) (hlen : l.length ≤ k) :
    (v ∈ l → lruMove k l v = l.erase v ++ [v]
      ∧ (lruMove k l v).length = l.length
      ∧ (lruMove k l v).getLast? = some v)
    ∧ (lruMove k l v).Nodup
    ∧ (l.length = k → v ∉ l → lruMove k l v = l.tail ++ [v]) := by
  by_cases hm : v ∈ l
  · have hne : l ≠ [] := List.ne_nil_of_mem hm
    have hpos : 0 < l.length := List.length_pos.mpr hne
    have herase_len : (l.erase v).length = l.length - 1 :=
      List.length_erase_of_mem hm
    have heq : lruMove k l v = l.erase v ++ [v] := by
      unfold lruMove dequeAppend
      rw [if_pos hm, herase_len]
      have hz : l.length - 1 + 1 - k = 0 := by omega
      rw [hz, List.drop_zero]
    refine ⟨fun _ => ⟨heq, ?_, ?_⟩, ?_, fun _ hv => absurd hm hv⟩
    · rw [heq, List.length_append, herase_len, List.length_singleton]
      omega
    · rw [heq]
      exact List.getLast?_concat _
    · rw [heq, List.nodup_append]
      refine ⟨List.Nodup.sublist (List.erase_sublist v l) hnd,
        List.nodup_singleton v, ?_⟩
      intro a ha hb
      rw [List.mem_singleton] at hb
      subst hb
      exact List.Nodup.not_mem_erase hnd ha
  · refine ⟨fun hm' => absurd hm' hm, ?_, ?_⟩
    · have : lruMove k l v = dequeAppend k l v := by
        unfold lruMove
        rw [if_neg hm]
      rw [this]
      exact dequeAppend_nodup k l v hnd hm
    · intro hlk _
      unfold lruMove dequeAppend
      rw [if_neg hm]
      have h1 : l.length + 1 - k = 1 := by omega
      rw [h1, List.drop_append_of_le_length (by omega), List.drop_one]

/-- Witness for `lru_dedup_buffer`: capacity 2, buffer `[4, 5]`,
re-inserting `5`. -/
theorem lru_dedup_buffer_witness :
    0 < 2 ∧ ([4, 5] : List Nat).Nodup ∧ ([4, 5] : List Nat).length ≤ 2
    ∧ ((5 ∈ ([4, 5] : List Nat) → lruMove 2 [4, 5] 5 = ([4, 5] : List Nat).erase 5 ++ [5]
        ∧ (lruMove 2 [4, 5] 5).length = ([4, 5] : List Nat).length
        ∧ (lruMove 2 [4, 5] 5).getLast? = some 5)
      ∧ (lruMove 2 [4, 5] 5).Nodup
      ∧ (([4, 5] : List Nat).length = 2 → 5 ∉ ([4, 5] : List Nat) →
          lruMove 2 [4, 5] 5 = ([4, 5] : List Nat).tail ++ [5])) :=
  ⟨by decide, by decide, by decide,
    lru_dedup_buffer 2 [4, 5] 5 (by decide) (by decide) (by decide)⟩

/-! ## Bloom filter (C4, C9) -/

lemma bitat_set_self (l : List Bool) (m : Nat) (hm : m < l.length) :
    bitat (l.set m true) m = true := by
  unfold bitat
  rw [List.getD_eq_getElem?_getD, List.getElem?_set_self hm]
  rfl

lemma bitat_set_true_mono (l : List Bool) (m n : Nat) (h : bitat l n = true) :
    bitat (l.set m true) n = true := by
  unfold bitat at h ⊢
  by_cases hmn : m = n
  · subst hmn
    by_cases hlt : m < l.length
    · rw [List.getD_eq_getElem?_getD, List.getElem?_set_self hlt]
      rfl
    · rw [List.set_eq_of_length_le (Nat.le_of_not_lt hlt)]
      exact h
  · rw [List.getD_eq_getElem?_getD, List.getElem?_set_ne hmn,
      ← List.getD_eq_getElem?_getD]
    exact h

lemma pySet_inbounds (l : List Bool) (i : Int) (hi : 0 ≤ i)
    (hlt : i < (l.length : Int)) :
    pySet l i true = .ok (l.set i.toNat true) := by
  unfold pySet pyIdx
  rw [if_pos ⟨hi, hlt⟩]

lemma pyGet_inbounds (l : List Bool) (i : Int) (hi : 0 ≤ i)
    (hlt : i < (l.length : Int)) :
    pyGet l i = .ok (l.getD i.toNat false) := by
  unfold pyGet pyIdx
  rw [if_pos ⟨hi, hlt⟩]

lemma bloomHashes_ok (hashf : Nat → Int) (size : Int) (k : Nat)
    (hpos : 0 < size) :
    bloomHashes hashf size k =
      .ok ((hashf k).fmod size, ((hashf k).fdiv size).fmod size,
        (((hashf k).fdiv size).fdiv size).fmod size) := by
  unfold bloomHashes
  rw [if_neg (ne_of_gt hpos)]

lemma bloomAdd_ok (hashf : Nat → Int) (size : Int) (st : List Bool) (k : Nat)
    (hpos : 0 < size) (hlen : st.length = size.toNat) :
    bloomAdd hashf size st k = .ok (bloomSet3 hashf size st k) := by
  have hlenI : (st.length : Int) = size := by omega
  have hm1 : 0 ≤ (hashf k).fmod size := Int.fmod_nonneg' _ hpos
  have hl1 : (hashf k).fmod size < (st.length : Int) := by
    rw [hlenI]; exact Int.fmod_lt_of_pos _ hpos
  have hm2 : 0 ≤ ((hashf k).fdiv size).fmod size := Int.fmod_nonneg' _ hpos
  have hl2 : ((hashf k).fdiv size).fmod size <
      ((st.set ((hashf k).fmod size).toNat true).length : Int) := by
    rw [List.length_set, hlenI]; exact Int.fmod_lt_of_pos _ hpos
  have hm3 : 0 ≤ (((hashf k).fdiv size).fdiv size).fmod size :=
    Int.fmod_nonneg' _ hpos
  have hl3 : (((hashf k).fdiv size).fdiv size).fmod size <
      (((st.set ((hashf k).fmod size).toNat true).set
          (((hashf k).fdiv size).fmod size).toNat true).length : Int) := by
    rw [List.length_set, List.length_set, hlenI]
    exact Int.fmod_lt_of_pos _ hpos
  unfold bloomAdd bloomSet3
  simp only [bloomHashes_ok hashf size k hpos,
    pySet_inbounds _ _ hm1 hl1, pySet_inbounds _ _ hm2 hl2,
    pySet_inbounds _ _ hm3 hl3]

lemma bloomSet3_length (hashf : Nat → Int) (size : Int) (st : List Bool)
    (k : Nat) : (bloomSet3 hashf size st k).length = st.length := by
  unfold bloomSet3
  simp [List.length_set]

lemma bloomSet3_mono (hashf : Nat → Int) (size : Int) (st : List Bool)
    (k : Nat) (n : Nat) (h : bitat st n = true) :
    bitat (bloomSet3 hashf size st k) n = true := by
  unfold bloomSet3
  exact bitat_set_true_mono _ _ _ (bitat_set_true_mono _ _ _
    (bitat_set_true_mono _ _ _ h))

lemma bloomSet3_bits (hashf : Nat → Int) (size : Int) (st : List Bool)
    (k : Nat) (hpos : 0 < size) (hlen : st.length = size.toNat) :
    bitat (bloomSet3 hashf size st k) ((hashf k).fmod size).toNat = true
    ∧ bitat (bloomSet3 hashf size st k)
        (((hashf k).fdiv size).fmod size).toNat = true
    ∧ bitat (bloomSet3 hashf size st k)
        ((((hashf k).fdiv size).fdiv size).fmod size).toNat = true := by
  have hb1 : ((hashf k).fmod size).toNat < st.length := by
    have := Int.fmod_lt_of_pos (hashf k) hpos
    have := Int.fmod_nonneg' (hashf k) hpos
    omega
  have hb2 : (((hashf k).fdiv size).fmod size).toNat < st.length := by
    have := Int.fmod_lt_of_pos ((hashf k).fdiv size) hpos
    have := Int.fmod_nonneg' ((hashf k).fdiv size) hpos
    omega
  have hb3 : ((((hashf k).fdiv size).fdiv size).fmod size).toNat < st.length := by
    have := Int.fmod_lt_of_pos (((hashf k).fdiv size).fdiv size) hpos
    have := Int.fmod_nonneg' (((hashf k).fdiv size).fdiv size) hpos
    omega
  unfold bloomSet3
  refine ⟨?_, ?_, ?_⟩
  · exact bitat_set_true_mono _ _ _ (bitat_set_true_mono _ _ _
      (bitat_set_self st _ hb1))
  · exact bitat_set_true_mono _ _ _
      (bitat_set_self _ _ (by simpa [List.length_set] using hb2))
  · exact bitat_set_self _ _ (by simpa [List.length_set] using hb3)

lemma bloomQuery_ok_of_bits (hashf : Nat → Int) (size : Int) (st : List Bool)
    (k : Nat) (hpos : 0 < size) (hlen : st.length = size.toNat)
    (h1 : bitat st ((hashf k).fmod size).toNat = true)
    (h2 : bitat st (((hashf k).fdiv size).fmod size).toNat = true)
    (h3 : bitat st ((((hashf k).fdiv size).fdiv size).fmod size).toNat = true) :
    bloomQuery hashf size st k = .ok true := by
  have hlenI : (st.length : Int) = size := by omega
  have g1 : pyGet st ((hashf k).fmod size) = .ok true := by
    rw [pyGet_inbounds _ _ (Int.fmod_nonneg' _ hpos)
      (by rw [hlenI]; exact Int.fmod_lt_of_pos _ hpos)]
    exact congrArg Except.ok h1
  have g2 : pyGet st (((hashf k).fdiv size).fmod size) = .ok true := by
    rw [pyGet_inbounds _ _ (Int.fmod_nonneg' _ hpos)
      (by rw [hlenI]; exact Int.fmod_lt_of_pos _ hpos)]
    exact congrArg Except.ok h2
  have g3 : pyGet st ((((hashf k).fdiv size).fdiv size).fmod size) = .ok true := by
    rw [pyGet_inbounds _ _ (Int.fmod_nonneg' _ hpos)
      (by rw [hlenI]; exact Int.fmod_lt_of_pos _ hpos)]
    exact congrArg Except.ok h3
  unfold bloomQuery
  simp only [bloomHashes_ok hashf size k hpos, g1, g2, g3]

lemma bloomAddList_ok (hashf : Nat → Int) (size : Int) (hpos : 0 < size) :
    ∀ (ks : List Nat) (st : List Bool), st.length = size.toNat →
      ∃ st2, bloomAddList hashf size st ks = .ok st2
        ∧ st2.length = st.length
        ∧ (∀ n, bitat st n = true → bitat st2 n = true) := by
  intro ks
  induction ks with
  | nil => intro st _; exact ⟨st, rfl, rfl, fun _ h => h⟩
  | cons k rest ih =>
    intro st hlen
    obtain ⟨st2, hrun, hlen2, hmono⟩ := ih (bloomSet3 hashf size st k)
      (by rw [bloomSet3_length]; exact hlen)
    refine ⟨st2, ?_, ?_, ?_⟩
    · unfold bloomAddList
      simp only [bloomAdd_ok hashf size st k hpos hlen]
      exact hrun
    · rw [hlen2, bloomSet3_length]
    · intro n hn
      exact hmono n (bloomSet3_mono hashf size st k n hn)

/-- C4: the Bloom filter has no false negatives — for a filter of
positive size, after `add(k)` and any further sequence of adds, `query(k)`
returns true; `add` only sets bits and nothing ever clears them. -/
theorem bloom_no_false_negative (hashf : Nat → Int) (size : Int)
    (st : List Bool) (k : Nat) (ks : List Nat)
    (hpos : 0 < size) (hlen : st.length = size.toNat) :
    ∃ st1 st2, bloomAdd hashf size st k = .ok st1
      ∧ bloomAddList hashf size st1 ks = .ok st2
      ∧ bloomQuery hashf size st2 k = .ok true
      ∧ (∀ n, bitat st n = true → bitat st2 n = true) := by
  have hadd := bloomAdd_ok hashf size st k hpos hlen
  have hlen1 : (bloomSet3 hashf size st k).length = size.toNat := by
    rw [bloomSet3_length]; exact hlen
  obtain ⟨st2, hrun, hlen2, hmono⟩ :=
    bloomAddList_ok hashf size hpos ks (bloomSet3 hashf size st k) hlen1
  obtain ⟨hb1, hb2, hb3⟩ := bloomSet3_bits hashf size st k hpos hlen
  have hq : bloomQuery hashf size st2 k = .ok true :=
    bloomQuery_ok_of_bits hashf size st2 k hpos (by rw [hlen2]; exact hlen1)
      (hmono _ hb1) (hmono _ hb2) (hmono _ hb3)
  exact ⟨bloomSet3 hashf size st k, st2, hadd, hrun, hq,
    fun n hn => hmono n (bloomSet3_mono hashf size st k n hn)⟩

/-- Witness for `bloom_no_false_negative`: size 3, all-zero array, key 0
added, then key 5 added afterwards. -/
theorem bloom_no_false_negative_witness :
    (0 : Int) < 3 ∧ (List.replicate 3 false).length = (3 : Int).toNat
    ∧ ∃ st1 st2,
        bloomAdd (fun n => (7 * n + 2 : Int)) 3 (List.replicate 3 false) 0 = .ok st1
        ∧ bloomAddList (fun n => (7 * n + 2 : Int)) 3 st1 [5] = .ok st2
        ∧ bloomQuery (fun n => (7 * n + 2 : Int)) 3 st2 0 = .ok true
        ∧ (∀ n, bitat (List.replicate 3 false) n = true → bitat st2 n = true) :=
  ⟨by decide, by decide,
    bloom_no_false_negative (fun n => (7 * n + 2 : Int)) 3
      (List.replicate 3 false) 0 [5] (by decide) (by decide)⟩

lemma pySet_nil (i : Int) (b : Bool) : pySet [] i b = .error "IndexError" := by
  unfold pySet pyIdx
  simp only [List.length_nil, Nat.cast_zero, neg_zero]
  rw [if_neg (by omega), if_neg (by omega)]

/-- C9 counterexample: constructing a Bloom filter with the negative size
`-5` does not fail — it yields a filter with an empty bit array — and the
failure only surfaces on a later `add`, as an `IndexError`. -/
theorem negative_bloom_size_constructs :
    bloomInit (some (-5)) = .ok (-5, ([] : List Bool))
    ∧ bloomAdd (fun _ => 42) (-5) [] 0 = .error "IndexError" := by
  constructor
  · rfl
  · simp only [bloomAdd, bloomHashes, if_neg (show (-5 : Int) ≠ 0 by omega),
      pySet_nil]

/-- C9 amended: a negative history size is reported at construction
(`deque` raises `ValueError` for a negative maxlen), but a negative
filter size is accepted silently at construction — producing an empty bit
array — and every later `add` on such a filter raises instead. -/
theorem negative_size_construction (m s : Int) (hm : m < 0) (hs : s < 0) :
    kHistoryInit m = .error "ValueError"
    ∧ bloomInit (some s) = .ok (s, ([] : List Bool))
    ∧ ∀ (hashf : Nat → Int) (key : Nat),
        bloomAdd hashf s [] key = .error "IndexError" := by
  refine ⟨?_, ?_, ?_⟩
  · unfold kHistoryInit
    rw [if_pos hm]
  · unfold bloomInit
    have hz : s.toNat = 0 := by omega
    simp [hz]
  · intro hashf key
    simp only [bloomAdd, bloomHashes, if_neg (show s ≠ 0 by omega), pySet_nil]

/-- Witness for `negative_size_construction` at history size `-1` and
filter size `-5`. -/
theorem negative_size_construction_witness :
    (-1 : Int) < 0 ∧ (-5 : Int) < 0
    ∧ (kHistoryInit (-1) = .error "ValueError"
      ∧ bloomInit (some (-5)) = .ok (-5, ([] : List Bool))
      ∧ ∀ (hashf : Nat → Int) (key : Nat),
          bloomAdd hashf (-5) [] key = .error "IndexError") :=
  ⟨by decide, by decide,
    negative_size_construction (-1) (-5) (by decide) (by decide)⟩

/-! ## Hybrid weight (C5) -/

lemma hybrid_weight_eq_some (hasEdge : Nat → Nat → Bool) (deg : Nat → Nat)
    (powA : Nat → ℚ) (bfq : Nat → Bool) (path : List Nat) (v t : Nat)
    (ht : prev_vertex path = some t) :
    hybrid_weight hasEdge deg powA bfq path v =
      if some t = some v then EPS
      else if t ≠ 0 ∧ hasEdge t v = true then EPS
      else if bfq v = true then EPS else powA (deg v) := by
  simp only [hybrid_weight, ht]

lemma hybrid_weight_eq_none (hasEdge : Nat → Nat → Bool) (deg : Nat → Nat)
    (powA : Nat → ℚ) (bfq : Nat → Bool) (path : List Nat) (v : Nat)
    (hn : prev_vertex path = none) :
    hybrid_weight hasEdge deg powA bfq path v =
      if bfq v = true then EPS else powA (deg v) := by
  simp only [hybrid_weight, hn]
  rw [if_neg (by simp)]

/-- C5: for a walk whose previous vertex (if any) is a positive vertex
label, the Hybrid policy weight of a candidate `v` is `EPS` whenever `v`
is the previous vertex, or `v` is adjacent to the previous vertex, or the
Bloom filter reports `v`; otherwise it is exactly `degree(v) ** alpha`
(no multiplication with the parent chain's weight). -/
theorem hybrid_weight_cases (hasEdge : Nat → Nat → Bool) (deg : Nat → Nat)
    (powA : Nat → ℚ) (bfq : Nat → Bool) (path : List Nat) (v : Nat)
    (hpos : ∀ t, prev_vertex path = some t → 0 < t) :
    (prev_vertex path = some v →
        hybrid_weight hasEdge deg powA bfq path v = EPS)
    ∧ (∀ t, prev_vertex path = some t → hasEdge t v = true →
        hybrid_weight hasEdge deg powA bfq path v = EPS)
    ∧ (bfq v = true → hybrid_weight hasEdge deg powA bfq path v = EPS)
    ∧ (prev_vertex path ≠ some v →
        (∀ t, prev_vertex path = some t → hasEdge t v = false) →
        bfq v = false →
        hybrid_weight hasEdge deg powA bfq path v = powA (deg v)) := by
  refine ⟨?_, ?_, ?_, ?_⟩
  · intro h
    rw [hybrid_weight_eq_some hasEdge deg powA bfq path v v h, if_pos rfl]
  · intro t ht hedge
    rw [hybrid_weight_eq_some hasEdge deg powA bfq path v t ht]
    by_cases hv : some t = some v
    · rw [if_pos hv]
    · rw [if_neg hv, if_pos ⟨by have := hpos t ht; omega, hedge⟩]
  · intro hb
    cases hprev : prev_vertex path with
    | none =>
      rw [hybrid_weight_eq_none hasEdge deg powA bfq path v hprev, if_pos hb]
    | some t =>
      rw [hybrid_weight_eq_some hasEdge deg powA bfq path v t hprev]
      by_cases hv : some t = some v
      · rw [if_pos hv]
      · rw [if_neg hv]
        by_cases he : t ≠ 0 ∧ hasEdge t v = true
        · rw [if_pos he]
        · rw [if_neg he, if_pos hb]
  · intro hnv hne hb
    cases hprev : prev_vertex path with
    | none =>
      rw [hybrid_weight_eq_none hasEdge deg powA bfq path v hprev,
        if_neg (by simp [hb])]
    | some t =>
      rw [hybrid_weight_eq_some hasEdge deg powA bfq path v t hprev]
      rw [if_neg (fun hh => hnv (by rw [hprev, hh]))]
      rw [if_neg (fun hc => by rw [hne t hprev] at hc; exact absurd hc.2 (by simp))]
      rw [if_neg (by simp [hb])]

/-- Witness for `hybrid_weight_cases`: empty path (no previous vertex),
a filter that reports every vertex, candidate vertex 7. -/
theorem hybrid_weight_cases_witness :
    (∀ t, prev_vertex [] = some t → 0 < t)
    ∧ ((prev_vertex [] = some 7 →
          hybrid_weight (fun _ _ => false) (fun _ => 0) (fun _ => 0)
            (fun _ => true) [] 7 = EPS)
      ∧ (∀ t, prev_vertex [] = some t → false = true →
          hybrid_weight (fun _ _ => false) (fun _ => 0) (fun _ => 0)
            (fun _ => true) [] 7 = EPS)
      ∧ (true = true →
          hybrid_weight (fun _ _ => false) (fun _ => 0) (fun _ => 0)
            (fun _ => true) [] 7 = EPS)
      ∧ (prev_vertex [] ≠ some 7 →
          (∀ t, prev_vertex [] = some t → false = false) →
          true = false →
          hybrid_weight (fun _ _ => false) (fun _ => 0) (fun _ => 0)
            (fun _ => true) [] 7 = 0)) :=
  ⟨fun t ht => by simp [prev_vertex] at ht,
    hybrid_weight_cases (fun _ _ => false) (fun _ => 0) (fun _ => 0)
      (fun _ => true) [] 7 (fun t ht => by simp [prev_vertex] at ht)⟩

/-! ## Lazy walk (C8) -/

lemma lzRun_lazy (u : Nat) :
    ∀ (draws : List (ℚ × Nat)) (s : WalkState), s.current = some u →
      (∀ p ∈ draws, p.1 ≤ 1) →
      ∃ s2, lzRun 1 s draws = .ok s2 ∧ s2.current = some u
        ∧ s2.step = s.step + draws.length
        ∧ s2.path = s.path ++ List.replicate draws.length u := by
  intro draws
  induction draws with
  | nil => intro s hc _; exact ⟨s, rfl, hc, by simp, by simp⟩
  | cons rf rest ih =>
    intro s hc hr
    have hl : rf.1 ≤ 1 := hr rf (List.mem_cons_self _ _)
    have hadv : lzAdvance 1 s rf = .ok (advance_with s u) := by
      simp [lzAdvance, hc, lzPick, hl]
    have hcur2 : (advance_with s u).current = some u := by
      simp [advance_with, move_to]
    obtain ⟨s2, hrun, hcur, hstep2, hpath⟩ :=
      ih (advance_with s u) hcur2 (fun p hp => hr p (List.mem_cons_of_mem _ hp))
    refine ⟨s2, ?_, hcur, ?_, ?_⟩
    · unfold lzRun
      simp only [hadv]
      exact hrun
    · rw [hstep2]
      simp only [advance_with, move_to, List.length_cons]
      omega
    · rw [hpath]
      simp [advance_with, move_to, List.replicate_succ]

/-- C8: a lazy walk agent with laziness 1.0 never changes `current`
across any number of `advance()` calls — every `pick_next` keeps the
current vertex, for every uniform draw in `[0, 1)` (here: `≤ 1`) and
every parent fallback pick — while `step` increments by one and `current`
is appended to `path` on every call. -/
theorem lazy_walk_stationary (s : WalkState) (u : Nat)
    (draws : List (ℚ × Nat)) (hc : s.current = some u)
    (hr : ∀ p ∈ draws, p.1 ≤ 1) :
    ∃ s2, lzRun 1 s draws = .ok s2 ∧ s2.current = some u
      ∧ s2.step = s.step + draws.length
      ∧ s2.path = s.path ++ List.replicate draws.length u :=
  lzRun_lazy u draws s hc hr

/-- Witness for `lazy_walk_stationary`: agent started at vertex 1, two
advances with draws 1/2 and 1 and arbitrary fallback picks. -/
theorem lazy_walk_stationary_witness :
    (srwInit (some 1)).current = some 1
    ∧ (∀ p ∈ [((1 : ℚ) / 2, 9), ((1 : ℚ), 4)], p.1 ≤ 1)
    ∧ ∃ s2, lzRun 1 (srwInit (some 1)) [((1 : ℚ) / 2, 9), ((1 : ℚ), 4)] = .ok s2
        ∧ s2.current = some 1
        ∧ s2.step = (srwInit (some 1)).step + 2
        ∧ s2.path = (srwInit (some 1)).path ++ List.replicate 2 1 :=
  ⟨rfl, by intro p hp; fin_cases hp <;> norm_num,
    lazy_walk_stationary (srwInit (some 1)) 1 [((1 : ℚ) / 2, 9), ((1 : ℚ), 4)]
      rfl (by intro p hp; fin_cases hp <;> norm_num)⟩
